import Mathlib

/-!
Shallow embedding of the retrieval-and-memory core of the Enterprise AI
Platform backend (`src/backend/app/services`), covering:

* `rag_service.py` — the hybrid retrieval merger (`RAGService.hybrid_search`,
  `RAGService.search_documents`, `RAGService.keyword_search`);
* `memory_service.py` — the memory profile store and conversation context
  linker (`MemoryService`);
* `knowledge_graph_service.py` — the knowledge graph adapter
  (`KnowledgeGraphService.get_entity_path`).

Python JSON-shaped values are embedded as `PyVal` (strings and lists of
strings, the shapes the service code manipulates); Python dicts are embedded
as association lists `List (String × α)` with first-match lookup `dget`,
in-place assignment `dict_assign` (replace the first entry with the key,
keeping its position, else append — the observable behaviour of a Python
dict assignment on an insertion-ordered dict) and `dict_update` (fold of
assignments, the behaviour of `dict.update`).  Floating-point similarity
scores are embedded as rationals: the claims under study only compare and
sort scores, and the concrete scores involved are exact decimal literals.
-/

/-- A Python JSON-ish value as used by the memory service: a string or a
list of strings.  (These are the only value shapes the embedded code paths
inspect; other shapes are never branched on by the claims under study.) -/
inductive PyVal where
  | str : String → PyVal
  | list : List String → PyVal
deriving DecidableEq

/-- Python `d.get(k)` / `d[k]` on an insertion-ordered dict embedded as an
association list: first matching key wins. -/
def dget {α : Type} : List (String × α) → String → Option α
  | [], _ => none
  | kv :: rest, k => if kv.1 = k then some kv.2 else dget rest k

/-- Python `d[k] = v` on an insertion-ordered dict: replace the first entry
with key `k` in place, else append `(k, v)` at the end. -/
def dict_assign {α : Type} : List (String × α) → String → α → List (String × α)
  | [], k, v => [(k, v)]
  | kv :: rest, k, v => if kv.1 = k then (k, v) :: rest else kv :: dict_assign rest k v

/-- Python `d.update(p)`: assign every entry of the patch in order. -/
def dict_update {α : Type} (d p : List (String × α)) : List (String × α) :=
  p.foldl (fun acc kv => dict_assign acc kv.1 kv.2) d

/-- Python `list(set(a).union(b))`: the element set is the union of the two
lists, with duplicates collapsed.  Python iterates a `set` in an unspecified
order; the embedding fixes `(a ++ b).dedup` as the representative, and all
theorems about it state only membership and duplicate-freedom. -/
def set_union_list (a b : List String) : List String := (a ++ b).dedup

/-- The elements Python `set(x)` iterates for a `PyVal`: the elements of a
list, or the single-character substrings of a string (Python iterates a
string character by character). -/
def py_set_elems : PyVal → List String
  | .list xs => xs
  | .str s => s.toList.map (fun c => String.mk [c])

/-- Python string surrounded by single quotes, as in `repr` of a `str`
(quote/escape subtleties inside the string are not modelled). -/
def py_quote (s : String) : String :=
  String.mk [Char.ofNat 39] ++ s ++ String.mk [Char.ofNat 39]

/-- Python `str(value)` for the embedded value shapes: a string prints
itself; a list prints as `[` repr-elements `]`. -/
def str_of_pyval : PyVal → String
  | .str s => s
  | .list l => "[" ++ String.intercalate ", " (l.map py_quote) ++ "]"

/-- Python `json.dumps` of a flat string-valued dict (escape subtleties are
not modelled). -/
def json_dumps (d : List (String × String)) : String :=
  "\x7b" ++ String.intercalate ", " (d.map (fun kv => "\"" ++ kv.1 ++ "\": \"" ++ kv.2 ++ "\"")) ++ "\x7d"

/-- Python `x or default` on an optional integer: `None` and `0` are falsy
and select the default (this models `top_k or self.top_k` in
`rag_service.py`). -/
def py_or_nat (o : Option Nat) (dflt : Nat) : Nat :=
  match o with
  | none => dflt
  | some k => if k = 0 then dflt else k

/-! ## Retrieval merger (`rag_service.py`) -/

/-- A row returned by either sub-query of `RAGService` (vector or keyword
search): the fields the merge step reads.  `similarity` embeds the float
score as a rational. -/
structure ChunkRow where
  chunk_id : String
  similarity : ℚ
deriving DecidableEq

/-- A merged result row: a `ChunkRow` labelled by the merge loop with
`search_type` (`"vector"` or `"keyword"`). -/
structure MergedRow where
  chunk_id : String
  similarity : ℚ
  search_type : String
deriving DecidableEq

/-- One dedup loop of `RAGService.hybrid_search` (lines 126-137): walk the
rows in order, skip a row whose `chunk_id` was already seen, otherwise mark
it seen and emit it labelled with `search_type := tag`.  Returns the final
seen-set and the emitted rows in order. -/
def add_results (tag : String) : List ChunkRow → List String → (List String × List MergedRow)
  | [], seen => (seen, [])
  | r :: rs, seen =>
    if r.chunk_id ∈ seen then add_results tag rs seen
    else ((add_results tag rs (r.chunk_id :: seen)).1,
          ⟨r.chunk_id, r.similarity, tag⟩ :: (add_results tag rs (r.chunk_id :: seen)).2)

/-- Descending-similarity comparison used by the final sort of
`hybrid_search` (`key=lambda x: x.get("similarity", 0), reverse=True`). -/
def sim_ge (a b : MergedRow) : Prop := b.similarity ≤ a.similarity

instance : DecidableRel sim_ge :=
  fun a b => inferInstanceAs (Decidable (b.similarity ≤ a.similarity))

instance : IsTotal MergedRow sim_ge := ⟨fun a b => le_total b.similarity a.similarity⟩

instance : IsTrans MergedRow sim_ge := ⟨fun _ _ _ h1 h2 => le_trans h2 h1⟩

/-- The combine-deduplicate-sort-truncate step of `RAGService.hybrid_search`
(lines 121-141): vector rows are added first (higher priority), then keyword
rows not already seen; the combined list is sorted by descending similarity
(Python `list.sort` is stable, embedded by the stable `insertionSort`) and
truncated to `top_k or self.top_k`. -/
def hybrid_merge (vector_results keyword_results : List ChunkRow)
    (top_k : Option Nat) (default_top_k : Nat) : List MergedRow :=
  let s1 := add_results "vector" vector_results []
  let s2 := add_results "keyword" keyword_results s1.1
  let combined := s1.2 ++ s2.2
  let sorted := combined.insertionSort sim_ge
  sorted.take (py_or_nat top_k default_top_k)

/-- Python `top_k * 2` where `top_k : Optional[int]`: multiplying `None`
raises a `TypeError` before any `or`-default substitution can happen. -/
def py_mul_opt (a : Option Nat) (b : Nat) : Except String Nat :=
  match a with
  | some n => Except.ok (n * b)
  | none => Except.error "TypeError"

/-- `RAGService.hybrid_search` (lines 106-141) as a whole: the sub-query
limit `top_k * 2` is computed first (raising on `None`), the two sub-queries
are issued with that limit (the sub-queries themselves are external reads,
abstracted as the functions `fetch_vector` / `fetch_keyword` from the
requested limit to rows), and the results are merged by `hybrid_merge`. -/
def hybrid_search (fetch_vector fetch_keyword : Nat → List ChunkRow)
    (top_k : Option Nat) (default_top_k : Nat) : Except String (List MergedRow) :=
  match py_mul_opt top_k 2 with
  | Except.error e => Except.error e
  | Except.ok lim =>
      Except.ok (hybrid_merge (fetch_vector lim) (fetch_keyword lim) top_k default_top_k)

/-- The document-level columns the SQL filter clauses of `rag_service.py`
read: `d.mime_type`, `d.tags`, `d.team_access`, `d.is_public`. -/
structure DocMeta where
  mime_type : String
  tags : List String
  team_access : List String
  is_public : Bool
deriving DecidableEq

/-- The optional filters accepted by both sub-queries (`document_type`,
`tags`, `team`); an absent field means the corresponding clause is not
added. -/
structure SearchFilters where
  document_type : Option String
  tags : Option (List String)
  team : Option String
deriving DecidableEq

/-- The conjunctive WHERE-clause filter built by
`RAGService.search_documents` (lines 43-60): `d.mime_type = :mime_type`,
`d.tags && :tags` (array overlap), and
`(:team = ANY(d.team_access) OR d.is_public = true)`. -/
def vector_filter (f : SearchFilters) (d : DocMeta) : Bool :=
  (match f.document_type with
   | some mt => decide (d.mime_type = mt)
   | none => true)
  && (match f.tags with
      | some ts => ts.any (fun t => decide (t ∈ d.tags))
      | none => true)
  && (match f.team with
      | some t => decide (t ∈ d.team_access) || d.is_public
      | none => true)

/-- The conjunctive WHERE-clause filter built by
`RAGService.keyword_search` (lines 152-166): only `d.mime_type = :mime_type`
and `d.tags && :tags` — no clause is added for the `team` filter. -/
def keyword_filter (f : SearchFilters) (d : DocMeta) : Bool :=
  (match f.document_type with
   | some mt => decide (d.mime_type = mt)
   | none => true)
  && (match f.tags with
      | some ts => ts.any (fun t => decide (t ∈ d.tags))
      | none => true)

/-! ## Memory profile store (`memory_service.py`) -/

/-- A project record: the Python dict passed to
`MemoryService.add_active_project`, embedded as a string-valued dict. -/
abbrev Proj : Type := List (String × String)

/-- `MemoryService.add_frequent_topic` (lines 216-238), restricted to its
pure effect on the `frequent_topics` list: a topic already present is a
no-op; otherwise the topic is appended, and if the list then exceeds 20
entries only the most recent 20 (`[-20:]`) are kept. -/
def add_frequent_topic (topics : List String) (topic : String) : List String :=
  if topic ∈ topics then topics
  else
    let t := topics ++ [topic]
    if 20 < t.length then t.drop (t.length - 20) else t

/-- `MemoryService.add_active_project` (lines 85-119), restricted to its
pure effect on the `active_projects` list: the first project whose `name`
field equals the new project's `name` field (`p.get('name') ==
project.get('name')`, so two absent names also match) is updated in place
with `existing.update(project)`; if none matches the project is appended. -/
def add_active_project (projects : List Proj) (project : Proj) : List Proj :=
  match projects with
  | [] => [project]
  | p :: ps =>
    if dget p "name" = dget project "name"
    then dict_update p project :: ps
    else p :: add_active_project ps project

/-- `MemoryService.update_domain_expertise` (lines 190-214), restricted to
its pure effect on the `domain_expertise` dict: for each patch entry in
order, if the new value is a list and the key is already present the stored
value becomes the set union of the old value's elements and the new list
(`set(old)` then `update(value)` then `list(...)`); otherwise the new value
is assigned directly. -/
def update_domain_expertise (dom : List (String × PyVal)) (patch : List (String × PyVal)) :
    List (String × PyVal) :=
  patch.foldl
    (fun d kv =>
      match kv.2, dget d kv.1 with
      | .list l, some old => dict_assign d kv.1 (.list (set_union_list (py_set_elems old) l))
      | _, _ => dict_assign d kv.1 kv.2)
    dom

/-- `MemoryService.update_team_info` (lines 70-83), restricted to its pure
effect on the `team_info` dict: the stored dict is replaced wholesale by the
argument (`memory.team_info = team_info`). -/
def update_team_info (_team_info new_info : List (String × PyVal)) : List (String × PyVal) :=
  new_info

/-- A `MemoryEntry` record (`user_memory.py`), for a fixed user: the fields
`MemoryService.add_memory_entry` reads and writes.  (`metadata` and
`source_conversation_id` are never set by the mutators under study and are
omitted.) -/
structure MemoryEntry where
  category : String
  key : String
  value : String
  confidence : Nat
  tags : List String
deriving DecidableEq

/-- `MemoryService.add_memory_entry` (lines 240-294) for a fixed user: if an
entry with the same `(category, key)` exists, its value and confidence are
overwritten and (when the truthy `tags` argument is supplied) its tag set is
unioned with the new tags; otherwise a fresh entry is appended with the
given tags (or `[]`). -/
def add_memory_entry : List MemoryEntry → String → String → String → Nat →
    Option (List String) → List MemoryEntry
  | [], c, k, v, conf, tags => [⟨c, k, v, conf, tags.getD []⟩]
  | e :: rest, c, k, v, conf, tags =>
    if e.category = c ∧ e.key = k then
      { e with
        value := v
        confidence := conf
        tags := match tags with
          | some ts => if ts = [] then e.tags else set_union_list e.tags ts
          | none => e.tags } :: rest
    else e :: add_memory_entry rest c k v conf tags

/-- The `UserMemory` fields (`user_memory.py`) touched by the mutators under
study, for a fixed user.  (Counters, notes and timestamps are orthogonal to
the claims and omitted.) -/
structure UserMemory where
  employee_facts : List (String × PyVal)
  team_info : List (String × PyVal)
  active_projects : List Proj
  project_history : List Proj
  conversation_summaries : List Proj
  domain_expertise : List (String × PyVal)
  frequent_topics : List String
deriving DecidableEq

/-- The per-user persistent state the memory service mutates: the
`UserMemory` row plus the user's `MemoryEntry` rows. -/
structure MemoryState where
  memory : UserMemory
  entries : List MemoryEntry
deriving DecidableEq

/-- `MemoryService.update_employee_facts` (lines 43-68): `dict.update` the
facts, then create/update one `MemoryEntry` per patch entry with category
`"employee"`, the fact key, `str(value)`, confidence 100 and tags
`["employee", "profile"]`. -/
def update_employee_facts_svc (st : MemoryState) (facts : List (String × PyVal)) : MemoryState :=
  { memory := { st.memory with employee_facts := dict_update st.memory.employee_facts facts }
    entries := facts.foldl
      (fun es kv => add_memory_entry es "employee" kv.1 (str_of_pyval kv.2) 100
        (some ["employee", "profile"]))
      st.entries }

/-- `MemoryService.update_team_info` (lines 70-83) as a state transformer:
replaces `team_info` wholesale; no `MemoryEntry` is written. -/
def update_team_info_svc (st : MemoryState) (team_info : List (String × PyVal)) : MemoryState :=
  { st with memory := { st.memory with team_info := update_team_info st.memory.team_info team_info } }

/-- `MemoryService.add_active_project` (lines 85-119) as a state
transformer: update/append the project, then create/update one
`MemoryEntry` with category `"project"`, key
`"active_project_" + project.get('name')` (Python formats a missing name as
`"None"`), value `json.dumps(project)` and tags `["project", "active"]`. -/
def add_active_project_svc (st : MemoryState) (project : Proj) : MemoryState :=
  { memory := { st.memory with
      active_projects := add_active_project st.memory.active_projects project }
    entries := add_memory_entry st.entries "project"
      ("active_project_" ++ (match dget project "name" with | some n => n | none => "None"))
      (json_dumps project) 100 (some ["project", "active"]) }

/-- `MemoryService.complete_project` (lines 121-154): remove the first
active project whose `name` equals `project_name`, merge the completion
data into it, stamp `completed_at` with the current time and append it to
`project_history`; when no project matches, the call leaves the project
lists unchanged.  No `MemoryEntry` is written. -/
def complete_project_svc (st : MemoryState) (project_name : String)
    (completion_data : Proj) (now : String) : MemoryState :=
  match st.memory.active_projects.find? (fun p => decide (dget p "name" = some project_name)) with
  | some project =>
      { st with memory := { st.memory with
          active_projects := st.memory.active_projects.erase project
          project_history := st.memory.project_history ++
            [dict_assign (dict_update project completion_data) "completed_at" now] } }
  | none => st

/-- `MemoryService.add_conversation_summary` (lines 156-188): append a
`{topic, resolution, date}` record (merged with any extra context), keeping
only the most recent 50 summaries.  No `MemoryEntry` is written. -/
def add_conversation_summary_svc (st : MemoryState) (topic resolution : String)
    (additional_context : Option Proj) (now : String) : MemoryState :=
  let s0 : Proj := [("topic", topic), ("resolution", resolution), ("date", now)]
  let s := match additional_context with
    | some extra => dict_update s0 extra
    | none => s0
  let sums := st.memory.conversation_summaries ++ [s]
  let sums2 := if 50 < sums.length then sums.drop (sums.length - 50) else sums
  { st with memory := { st.memory with conversation_summaries := sums2 } }

/-- `MemoryService.update_domain_expertise` (lines 190-214) as a state
transformer.  No `MemoryEntry` is written. -/
def update_domain_expertise_svc (st : MemoryState) (expertise : List (String × PyVal)) :
    MemoryState :=
  { st with memory := { st.memory with
      domain_expertise := update_domain_expertise st.memory.domain_expertise expertise } }

/-- `MemoryService.add_frequent_topic` (lines 216-238) as a state
transformer.  No `MemoryEntry` is written. -/
def add_frequent_topic_svc (st : MemoryState) (topic : String) : MemoryState :=
  { st with memory := { st.memory with
      frequent_topics := add_frequent_topic st.memory.frequent_topics topic } }

/-- The state of a user's memory immediately after lazy creation: every
field defaults to empty. -/
def empty_memory_state : MemoryState :=
  { memory := ⟨[], [], [], [], [], [], []⟩, entries := [] }

/-! ## Conversation context linker (`memory_service.py`, lines 320-393) -/

/-- A `ConversationContext` row (`user_memory.py`) for a fixed
`(user, context_key)`: the fields `add_conversation_to_context` mutates.
Timestamps are embedded as naturals supplied by the caller (the code reads
`datetime.utcnow()`). -/
structure ConversationContext where
  conversation_ids : List String
  key_facts : List String
  decisions_made : List String
  action_items : List String
  last_conversation_at : Nat
  updated_at : Nat
deriving DecidableEq

/-- `MemoryService.add_conversation_to_context` (lines 352-393): the
conversation id is appended only if not already present; each of the three
optional accumulator lists is extended (Python `if xs:` skips `None` and the
empty list, which extensionally appends nothing); both timestamps are set to
the current time on every call. -/
def add_conversation_to_context (ctx : ConversationContext) (conversation_id : String)
    (key_facts decisions action_items : Option (List String)) (now : Nat) :
    ConversationContext :=
  { conversation_ids :=
      if conversation_id ∈ ctx.conversation_ids then ctx.conversation_ids
      else ctx.conversation_ids ++ [conversation_id]
    key_facts := match key_facts with
      | some fs => if fs = [] then ctx.key_facts else ctx.key_facts ++ fs
      | none => ctx.key_facts
    decisions_made := match decisions with
      | some ds => if ds = [] then ctx.decisions_made else ctx.decisions_made ++ ds
      | none => ctx.decisions_made
    action_items := match action_items with
      | some as0 => if as0 = [] then ctx.action_items else ctx.action_items ++ as0
      | none => ctx.action_items
    last_conversation_at := now
    updated_at := now }

/-! ## Knowledge graph adapter (`knowledge_graph_service.py`) -/

/-- A typed directed edge of the knowledge graph
(`KnowledgeGraphService.create_relationship`). -/
structure KnowledgeEdge where
  source_id : String
  target_id : String
  rel_type : String
deriving DecidableEq

/-- The neighbours of an entity under the undirected relationship pattern
`-[]-` used by the Cypher `shortestPath` query of
`KnowledgeGraphService.get_entity_path`: an edge can be traversed in either
direction, whatever its type. -/
def neighbors (es : List KnowledgeEdge) (v : String) : List String :=
  es.filterMap (fun e =>
    if e.source_id = v then some e.target_id
    else if e.target_id = v then some e.source_id
    else none)

/-- There is an undirected path of length between 1 and `d` from `x` to `y`
(the reachability notion behind the Cypher pattern `-[*1..max_depth]-`). -/
def reach_within (es : List KnowledgeEdge) (x y : String) : Nat → Bool
  | 0 => false
  | d + 1 => (neighbors es x).any (fun n => decide (n = y) || reach_within es n y d)

/-- Modelled from the spec: the walk enumeration of the external graph
store's `shortestPath` (the Cypher engine behind
`KnowledgeGraphService.get_entity_path` is not part of this repository; §4.5
and §9 of the spec describe it as a depth-bounded traversal).  `paths_from
es x k` lists every undirected walk of exactly `k` edges starting at `x`,
most recent node first. -/
def paths_from (es : List KnowledgeEdge) (x : String) : Nat → List (List String)
  | 0 => [[x]]
  | k + 1 => (paths_from es x k).flatMap (fun p =>
      match p.head? with
      | some v => (neighbors es v).map (fun n => n :: p)
      | none => [])

/-- Modelled from the spec: the external graph store's
`shortestPath(source, target, 1..max_depth)` — search walk lengths in
increasing order and return the first walk reaching the target, or nothing
when no walk of length at most `max_depth` exists. -/
def store_shortest_path (es : List KnowledgeEdge) (x y : String) (max_depth : Nat) :
    Option (List String) :=
  (((List.range max_depth).flatMap (fun k => paths_from es x (k + 1))).find?
      (fun p => decide (p.head? = some y))).map List.reverse

/-- The record `KnowledgeGraphService.get_entity_path` builds from a found
path row (node ids in order; per-edge details are not needed by the claims
under study). -/
structure PathResult where
  nodes : List String
deriving DecidableEq

/-- `KnowledgeGraphService.get_entity_path` (lines 250-286): run the store's
shortest-path query; if a record comes back, package it, otherwise return
`None` — absence is a value, not a raised error. -/
def get_entity_path (es : List KnowledgeEdge) (source_id target_id : String)
    (max_depth : Nat) : Option PathResult :=
  match store_shortest_path es source_id target_id max_depth with
  | some p => some ⟨p⟩
  | none => none

/-! ## Dict lemmas -/

theorem dget_dict_assign_self {α : Type} (d : List (String × α)) (k : String) (v : α) :
    dget (dict_assign d k v) k = some v := by
  induction d with
  | nil => simp [dict_assign, dget]
  | cons kv rest ih =>
      by_cases h : kv.1 = k
      · simp [dict_assign, h, dget]
      · simp [dict_assign, h, dget, ih]

theorem dget_dict_assign_ne {α : Type} (d : List (String × α)) (k k2 : String) (v : α)
    (h : k ≠ k2) : dget (dict_assign d k v) k2 = dget d k2 := by
  induction d with
  | nil => simp [dict_assign, dget, h]
  | cons kv rest ih =>
      by_cases hk : kv.1 = k
      · simp [dict_assign, hk, dget, h, Ne.symm]
      · simp [dict_assign, hk, dget, ih]

theorem dget_eq_none_of_not_mem {α : Type} (d : List (String × α)) (k : String)
    (h : k ∉ d.map Prod.fst) : dget d k = none := by
  induction d with
  | nil => rfl
  | cons kv rest ih =>
      simp only [List.map_cons, List.mem_cons] at h
      push_neg at h
      simp [dget, Ne.symm h.1, ih h.2]

theorem dget_dict_update {α : Type} (d p : List (String × α)) (k : String)
    (hp : (p.map Prod.fst).Nodup) :
    dget (dict_update d p) k = (dget p k).or (dget d k) := by
  induction p generalizing d with
  | nil => simp [dict_update, dget]
  | cons kv rest ih =>
      simp only [List.map_cons, List.nodup_cons] at hp
      have step : dict_update d (kv :: rest) = dict_update (dict_assign d kv.1 kv.2) rest := rfl
      rw [step, ih _ hp.2]
      by_cases h : kv.1 = k
      · subst h
        rw [dget_eq_none_of_not_mem rest kv.1 hp.1, dget_dict_assign_self]
        simp [dget]
      · rw [dget_dict_assign_ne _ _ _ _ h]
        simp [dget, h]

/-! ## Claim theorems -/

/-- Claim C10: calling `hybrid_search` without a `top_k` value does not fall
back to the configured default — the expression `top_k * 2` is evaluated on
the `None` value before any `or`-default substitution, so the call fails
with a `TypeError` instead of returning a result; with `top_k` supplied the
call succeeds and hands `top_k * 2` to both sub-queries. -/
theorem hybrid_search_none_top_k_fails :
    (∀ (fv fk : Nat → List ChunkRow) (dflt : Nat),
        hybrid_search fv fk none dflt = Except.error "TypeError") ∧
    (∀ (fv fk : Nat → List ChunkRow) (k dflt : Nat),
        hybrid_search fv fk (some k) dflt =
          Except.ok (hybrid_merge (fv (k * 2)) (fk (k * 2)) (some k) dflt)) :=
  ⟨fun _ _ _ => rfl, fun _ _ _ _ => rfl⟩

/-- Claim C2 (code bug): the team-access filter is applied by the vector
sub-query but omitted by the keyword sub-query.  A document restricted to
team `"sales"` and not public is excluded by the vector path when searching
as team `"engineering"`, yet accepted by the keyword path, so the two paths
do not apply the same conjunctive predicate. -/
theorem keyword_filter_omits_team_clause :
    vector_filter ⟨none, none, some "engineering"⟩ ⟨"text/plain", [], ["sales"], false⟩ = false ∧
    keyword_filter ⟨none, none, some "engineering"⟩ ⟨"text/plain", [], ["sales"], false⟩ = true := by
  decide

/-- Claim C6 counterexample: updating `teamInfo` with a patch that omits a
previously present key does not keep that key's value — the whole mapping
is replaced, so key `"a"` is dropped rather than retained. -/
theorem update_team_info_counterexample :
    dget [("a", PyVal.str "1")] "a" = some (PyVal.str "1") ∧
    dget (update_team_info [("a", PyVal.str "1")] [("b", PyVal.str "2")]) "a" = none := by
  decide

/-- Claim C6 (amended): updating `teamInfo` replaces the mapping wholesale
with the patch: after an update with patch `P`, every lookup answers exactly
as `P` does — keys in `P` map to `P`'s values, and keys previously present
but absent from `P` are dropped rather than kept. -/
theorem update_team_info_wholesale :
    ∀ (old p : List (String × PyVal)) (k : String),
      dget (update_team_info old p) k = dget p k :=
  fun _ _ _ => rfl

theorem link_key_facts_eq (ctx : ConversationContext) (cid : String)
    (f d a : Option (List String)) (n : Nat) :
    (add_conversation_to_context ctx cid f d a n).key_facts = ctx.key_facts ++ f.getD [] := by
  cases f with
  | none => simp [add_conversation_to_context]
  | some fs =>
      by_cases h : fs = [] <;> simp [add_conversation_to_context, h]

theorem link_decisions_eq (ctx : ConversationContext) (cid : String)
    (f d a : Option (List String)) (n : Nat) :
    (add_conversation_to_context ctx cid f d a n).decisions_made =
      ctx.decisions_made ++ d.getD [] := by
  cases d with
  | none => simp [add_conversation_to_context]
  | some ds =>
      by_cases h : ds = [] <;> simp [add_conversation_to_context, h]

theorem link_action_items_eq (ctx : ConversationContext) (cid : String)
    (f d a : Option (List String)) (n : Nat) :
    (add_conversation_to_context ctx cid f d a n).action_items =
      ctx.action_items ++ a.getD [] := by
  cases a with
  | none => simp [add_conversation_to_context]
  | some as0 =>
      by_cases h : as0 = [] <;> simp [add_conversation_to_context, h]

theorem link_ids_count (ctx : ConversationContext) (cid : String)
    (f d a : Option (List String)) (n : Nat) (h : ctx.conversation_ids.count cid ≤ 1) :
    (add_conversation_to_context ctx cid f d a n).conversation_ids.count cid = 1 := by
  by_cases hm : cid ∈ ctx.conversation_ids
  · have h1 : 1 ≤ ctx.conversation_ids.count cid := List.one_le_count_iff.mpr hm
    simp only [add_conversation_to_context, if_pos hm]
    omega
  · simp only [add_conversation_to_context, if_neg hm]
    rw [List.count_append, List.count_eq_zero_of_not_mem hm]
    simp

theorem link_ids_mem (ctx : ConversationContext) (cid : String)
    (f d a : Option (List String)) (n : Nat) :
    cid ∈ (add_conversation_to_context ctx cid f d a n).conversation_ids := by
  by_cases hm : cid ∈ ctx.conversation_ids <;>
    simp [add_conversation_to_context, hm]

/-- Claim C8: `linkConversation` is idempotent on the conversation id but
accumulative on content — after two calls with the same id (starting from a
context holding that id at most once), `conversationIds` holds the id
exactly once, while the supplied key facts, decisions and action items of
both calls are appended without deduplication, and `lastConversationAt` is
set to the current time on each of the two calls. -/
theorem link_conversation_idempotent_ids_accumulates_facts
    (ctx : ConversationContext) (cid : String)
    (f1 d1 a1 f2 d2 a2 : Option (List String)) (n1 n2 : Nat)
    (h : ctx.conversation_ids.count cid ≤ 1) :
    ((add_conversation_to_context (add_conversation_to_context ctx cid f1 d1 a1 n1)
        cid f2 d2 a2 n2).conversation_ids.count cid = 1) ∧
    ((add_conversation_to_context (add_conversation_to_context ctx cid f1 d1 a1 n1)
        cid f2 d2 a2 n2).key_facts = ctx.key_facts ++ f1.getD [] ++ f2.getD []) ∧
    ((add_conversation_to_context (add_conversation_to_context ctx cid f1 d1 a1 n1)
        cid f2 d2 a2 n2).decisions_made = ctx.decisions_made ++ d1.getD [] ++ d2.getD []) ∧
    ((add_conversation_to_context (add_conversation_to_context ctx cid f1 d1 a1 n1)
        cid f2 d2 a2 n2).action_items = ctx.action_items ++ a1.getD [] ++ a2.getD []) ∧
    ((add_conversation_to_context ctx cid f1 d1 a1 n1).last_conversation_at = n1) ∧
    ((add_conversation_to_context (add_conversation_to_context ctx cid f1 d1 a1 n1)
        cid f2 d2 a2 n2).last_conversation_at = n2) := by
  have hc1 := link_ids_count ctx cid f1 d1 a1 n1 h
  have hmem := link_ids_mem ctx cid f1 d1 a1 n1
  refine ⟨?_, ?_, ?_, ?_, rfl, rfl⟩
  · have := link_ids_count (add_conversation_to_context ctx cid f1 d1 a1 n1) cid f2 d2 a2 n2
      (by omega)
    exact this
  · rw [link_key_facts_eq, link_key_facts_eq]
  · rw [link_decisions_eq, link_decisions_eq]
  · rw [link_action_items_eq, link_action_items_eq]

/-- Claim C8 witness: a fresh context linked twice to conversation `"c1"`,
both times reaffirming fact `"f"`, ends with the id once and the fact
twice, and the timestamp of the second call. -/
theorem link_conversation_witness :
    ((⟨[], [], [], [], 0, 0⟩ : ConversationContext).conversation_ids.count "c1" ≤ 1) ∧
    ((add_conversation_to_context (add_conversation_to_context ⟨[], [], [], [], 0, 0⟩
        "c1" (some ["f"]) none none 1) "c1" (some ["f"]) none none 2).conversation_ids.count "c1" = 1) ∧
    ((add_conversation_to_context (add_conversation_to_context ⟨[], [], [], [], 0, 0⟩
        "c1" (some ["f"]) none none 1) "c1" (some ["f"]) none none 2).key_facts = ["f", "f"]) := by
  have h := link_conversation_idempotent_ids_accumulates_facts
    ⟨[], [], [], [], 0, 0⟩ "c1" (some ["f"]) none none (some ["f"]) none none 1 2 (by decide)
  exact ⟨by decide, h.1, by simpa using h.2.1⟩

theorem add_frequent_topic_of_mem (l : List String) (t : String) (h : t ∈ l) :
    add_frequent_topic l t = l := by
  simp [add_frequent_topic, h]

theorem add_frequent_topic_of_not_mem_short (l : List String) (t : String)
    (h : t ∉ l) (hl : l.length < 20) : add_frequent_topic l t = l ++ [t] := by
  simp [add_frequent_topic, h]
  intro h2
  exact absurd h2 (by omega)

theorem add_frequent_topic_of_not_mem_full (l : List String) (t : String)
    (h : t ∉ l) (hl : l.length = 20) : add_frequent_topic l t = l.drop 1 ++ [t] := by
  have h21 : (l ++ [t]).length = 21 := by simp [hl]
  have hlt : 20 < (l ++ [t]).length := by omega
  have hd : (l ++ [t]).length - 20 = 1 := by omega
  rw [add_frequent_topic, if_neg h]
  simp only [hlt, if_pos, hd]
  exact List.drop_append_of_le_length (by omega)

theorem add_frequent_topic_invariant (l : List String) (t : String)
    (h : l.Nodup ∧ l.length ≤ 20) :
    (add_frequent_topic l t).Nodup ∧ (add_frequent_topic l t).length ≤ 20 := by
  by_cases hm : t ∈ l
  · rw [add_frequent_topic_of_mem l t hm]; exact h
  · have hnd : (l ++ [t]).Nodup := by
      rw [List.nodup_append]
      exact ⟨h.1, List.nodup_singleton t, by simpa using hm⟩
    by_cases hfull : l.length = 20
    · rw [add_frequent_topic_of_not_mem_full l t hm hfull]
      constructor
      · exact List.Nodup.sublist
          ((List.drop_sublist 1 l).append (List.Sublist.refl [t])) hnd
      · simp [hfull]
    · have hshort : l.length < 20 := by omega
      rw [add_frequent_topic_of_not_mem_short l t hm hshort]
      exact ⟨hnd, by simp; omega⟩

theorem foldl_add_frequent_topic_invariant (calls : List String) (init : List String)
    (h : init.Nodup ∧ init.length ≤ 20) :
    (calls.foldl add_frequent_topic init).Nodup ∧
    (calls.foldl add_frequent_topic init).length ≤ 20 := by
  induction calls generalizing init with
  | nil => exact h
  | cons c cs ih => exact ih _ (add_frequent_topic_invariant init c h)

/-- Claim C3: for every sequence of `addFrequentTopic` calls starting from
the empty profile, the topic list has no duplicates and at most 20 entries;
a call with a topic already present leaves the list unchanged, a call with
a new topic appends it to the end when fewer than 20 topics are stored and
otherwise drops the oldest topic before appending, the rest of the list
keeping its insertion order. -/
theorem add_frequent_topic_spec :
    (∀ calls : List String,
        (calls.foldl add_frequent_topic []).Nodup ∧
        (calls.foldl add_frequent_topic []).length ≤ 20) ∧
    (∀ (l : List String) (t : String), t ∈ l → add_frequent_topic l t = l) ∧
    (∀ (l : List String) (t : String), t ∉ l → l.length < 20 →
        add_frequent_topic l t = l ++ [t]) ∧
    (∀ (l : List String) (t : String), t ∉ l → l.length = 20 →
        add_frequent_topic l t = l.drop 1 ++ [t]) :=
  ⟨fun calls => foldl_add_frequent_topic_invariant calls [] ⟨List.nodup_nil, by simp⟩,
   add_frequent_topic_of_mem,
   add_frequent_topic_of_not_mem_short,
   add_frequent_topic_of_not_mem_full⟩

/-- Claim C3 witness: instantiating the specification — a repeated topic is
a no-op and a fresh topic is appended. -/
theorem add_frequent_topic_spec_witness :
    ("a" ∈ ["a"]) ∧ (("b" : String) ∉ ["a"]) ∧ (["a"] : List String).length < 20 ∧
    add_frequent_topic ["a"] "a" = ["a"] ∧
    add_frequent_topic ["a"] "b" = ["a", "b"] :=
  ⟨by decide, by decide, by decide,
   add_frequent_topic_spec.2.1 ["a"] "a" (by decide),
   add_frequent_topic_spec.2.2.1 ["a"] "b" (by decide) (by decide)⟩

theorem update_domain_expertise_list_merge (d : List (String × PyVal)) (k : String)
    (old l : List String) (h : dget d k = some (PyVal.list old)) :
    update_domain_expertise d [(k, PyVal.list l)] =
      dict_assign d k (PyVal.list (set_union_list old l)) := by
  simp [update_domain_expertise, h, py_set_elems]

theorem update_domain_expertise_scalar (d : List (String × PyVal)) (k : String) (s : String) :
    update_domain_expertise d [(k, PyVal.str s)] = dict_assign d k (PyVal.str s) := by
  cases hdk : dget d k <;> simp [update_domain_expertise, hdk]

/-- Claim C5: a list-valued patch entry whose key already holds a list is
merged as a set union with the stored list — the result has no duplicates,
its elements are exactly the union, and the old elements are never thrown
away — while a non-list patch entry overwrites; in particular merging
`{states_worked: [CA]}` and then `{states_worked: [CA, NY]}` into an empty
profile yields exactly the element set `{CA, NY}`. -/
theorem update_domain_expertise_spec :
    (∀ (d : List (String × PyVal)) (k : String) (old l : List String),
        dget d k = some (PyVal.list old) →
        ∃ u, dget (update_domain_expertise d [(k, PyVal.list l)]) k = some (PyVal.list u) ∧
          u.Nodup ∧ (∀ x, x ∈ u ↔ x ∈ old ∨ x ∈ l)) ∧
    (∀ (d : List (String × PyVal)) (k : String) (s : String),
        dget (update_domain_expertise d [(k, PyVal.str s)]) k = some (PyVal.str s)) ∧
    (∃ u, dget (update_domain_expertise
          (update_domain_expertise [] [("states_worked", PyVal.list ["CA"])])
          [("states_worked", PyVal.list ["CA", "NY"])]) "states_worked" =
        some (PyVal.list u) ∧ u.Nodup ∧ (∀ x, x ∈ u ↔ x = "CA" ∨ x = "NY")) := by
  refine ⟨?_, ?_, ?_⟩
  · intro d k old l h
    rw [update_domain_expertise_list_merge d k old l h]
    refine ⟨set_union_list old l, dget_dict_assign_self _ _ _, List.nodup_dedup _, ?_⟩
    intro x
    simp [set_union_list]
  · intro d k s
    rw [update_domain_expertise_scalar, dget_dict_assign_self]
  · refine ⟨["CA", "NY"], by decide, by decide, ?_⟩
    intro x
    simp

/-- Claim C5 witness: a stored list `[CA]` merged with a patch list
`[CA, NY]` under the same key. -/
theorem update_domain_expertise_spec_witness :
    dget [("states_worked", PyVal.list ["CA"])] "states_worked" = some (PyVal.list ["CA"]) ∧
    (∃ u, dget (update_domain_expertise [("states_worked", PyVal.list ["CA"])]
          [("states_worked", PyVal.list ["CA", "NY"])]) "states_worked" =
        some (PyVal.list u) ∧ u.Nodup ∧ (∀ x, x ∈ u ↔ x ∈ ["CA"] ∨ x ∈ ["CA", "NY"])) :=
  ⟨by decide,
   update_domain_expertise_spec.1 [("states_worked", PyVal.list ["CA"])]
     "states_worked" ["CA"] ["CA", "NY"] (by decide)⟩

theorem add_memory_entry_creates (es : List MemoryEntry) (c k v : String) (conf : Nat)
    (tags : Option (List String)) :
    ∃ e ∈ add_memory_entry es c k v conf tags, e.category = c ∧ e.key = k ∧ e.value = v := by
  induction es with
  | nil => exact ⟨⟨c, k, v, conf, tags.getD []⟩, by simp [add_memory_entry]⟩
  | cons e rest ih =>
      by_cases h : e.category = c ∧ e.key = k
      · simp only [add_memory_entry]
        rw [if_pos h]
        exact ⟨_, List.mem_cons_self _ _, h.1, h.2, rfl⟩
      · obtain ⟨e0, he0, hp⟩ := ih
        simp only [add_memory_entry]
        rw [if_neg h]
        exact ⟨e0, List.mem_cons_of_mem _ he0, hp⟩

theorem add_memory_entry_preserves (es : List MemoryEntry) (c k v : String) (conf : Nat)
    (tags : Option (List String)) (c0 k0 : String)
    (h : ∃ e ∈ es, e.category = c0 ∧ e.key = k0) :
    ∃ e ∈ add_memory_entry es c k v conf tags, e.category = c0 ∧ e.key = k0 := by
  induction es with
  | nil => simp at h
  | cons e rest ih =>
      obtain ⟨e0, he0, hp⟩ := h
      by_cases hc : e.category = c ∧ e.key = k
      · simp only [add_memory_entry]
        rw [if_pos hc]
        rcases List.mem_cons.mp he0 with heq | hmem
        · subst heq
          exact ⟨_, List.mem_cons_self _ _, hp⟩
        · exact ⟨e0, List.mem_cons_of_mem _ hmem, hp⟩
      · simp only [add_memory_entry]
        rw [if_neg hc]
        rcases List.mem_cons.mp he0 with heq | hmem
        · subst heq
          exact ⟨e0, List.mem_cons_self _ _, hp⟩
        · obtain ⟨e1, he1, hp1⟩ := ih ⟨e0, hmem, hp⟩
          exact ⟨e1, List.mem_cons_of_mem _ he1, hp1⟩

theorem foldl_employee_entries_preserves (facts : List (String × PyVal))
    (es : List MemoryEntry) (c0 k0 : String)
    (h : ∃ e ∈ es, e.category = c0 ∧ e.key = k0) :
    ∃ e ∈ facts.foldl
        (fun es2 kv => add_memory_entry es2 "employee" kv.1 (str_of_pyval kv.2) 100
          (some ["employee", "profile"])) es,
      e.category = c0 ∧ e.key = k0 := by
  induction facts generalizing es with
  | nil => exact h
  | cons kv rest ih =>
      exact ih _ (add_memory_entry_preserves _ _ _ _ _ _ _ _ h)

/-- Claim C7 counterexample: `addFrequentTopic` on a fresh profile performs
its mutation (the topic is stored) yet creates no `MemoryEntry` record at
all, so not every memory profile mutator writes a corresponding
`MemoryEntry` as a side effect. -/
theorem add_frequent_topic_no_memory_entry :
    (add_frequent_topic_svc empty_memory_state "kubernetes").memory.frequent_topics =
      ["kubernetes"] ∧
    (add_frequent_topic_svc empty_memory_state "kubernetes").entries = [] := by
  decide

/-- Claim C7 (amended): only `updateFacts` and `addOrUpdateProject` create
or update a corresponding `MemoryEntry` (keyed by category and key) as a
side effect of a successful call; `completeProject`, `appendSummary`,
`mergeDomainExpertise` and `addFrequentTopic` leave the `MemoryEntry`
records untouched. -/
theorem memory_entry_side_effects :
    (∀ (st : MemoryState) (facts : List (String × PyVal)) (kv : String × PyVal),
        kv ∈ facts →
        ∃ e ∈ (update_employee_facts_svc st facts).entries,
          e.category = "employee" ∧ e.key = kv.1) ∧
    (∀ (st : MemoryState) (project : Proj) (n : String),
        dget project "name" = some n →
        ∃ e ∈ (add_active_project_svc st project).entries,
          e.category = "project" ∧ e.key = "active_project_" ++ n ∧
            e.value = json_dumps project) ∧
    (∀ (st : MemoryState) (name : String) (data : Proj) (now : String),
        (complete_project_svc st name data now).entries = st.entries) ∧
    (∀ (st : MemoryState) (topic res : String) (extra : Option Proj) (now : String),
        (add_conversation_summary_svc st topic res extra now).entries = st.entries) ∧
    (∀ (st : MemoryState) (exp2 : List (String × PyVal)),
        (update_domain_expertise_svc st exp2).entries = st.entries) ∧
    (∀ (st : MemoryState) (t : String),
        (add_frequent_topic_svc st t).entries = st.entries) := by
  refine ⟨?_, ?_, ?_, fun _ _ _ _ _ => rfl, fun _ _ => rfl, fun _ _ => rfl⟩
  · intro st facts kv hkv
    show ∃ e ∈ facts.foldl
        (fun es2 kv2 => add_memory_entry es2 "employee" kv2.1 (str_of_pyval kv2.2) 100
          (some ["employee", "profile"])) st.entries,
      e.category = "employee" ∧ e.key = kv.1
    induction facts generalizing st with
    | nil => simp at hkv
    | cons kv0 rest ih =>
        rcases List.mem_cons.mp hkv with heq | hmem
        · subst heq
          rw [List.foldl_cons]
          apply foldl_employee_entries_preserves
          obtain ⟨e, he, h1, h2, _⟩ := add_memory_entry_creates st.entries "employee" kv.1
            (str_of_pyval kv.2) 100 (some ["employee", "profile"])
          exact ⟨e, he, h1, h2⟩
        · rw [List.foldl_cons]
          exact ih ⟨st.memory, add_memory_entry st.entries "employee" kv0.1
            (str_of_pyval kv0.2) 100 (some ["employee", "profile"])⟩ hmem
  · intro st project n hn
    show ∃ e ∈ add_memory_entry st.entries "project"
        ("active_project_" ++ (match dget project "name" with | some n2 => n2 | none => "None"))
        (json_dumps project) 100 (some ["project", "active"]),
      e.category = "project" ∧ e.key = "active_project_" ++ n ∧ e.value = json_dumps project
    rw [hn]
    exact add_memory_entry_creates st.entries "project" ("active_project_" ++ n)
      (json_dumps project) 100 (some ["project", "active"])
  · intro st name data now
    simp only [complete_project_svc]
    split <;> rfl

/-- Claim C7 witness: a fact patch and a named project on a fresh profile
produce their `MemoryEntry` records. -/
theorem memory_entry_side_effects_witness :
    (("role", PyVal.str "engineer") ∈ [("role", PyVal.str "engineer")]) ∧
    (∃ e ∈ (update_employee_facts_svc empty_memory_state
        [("role", PyVal.str "engineer")]).entries,
      e.category = "employee" ∧ e.key = "role") ∧
    dget [("name", "alpha")] "name" = some "alpha" ∧
    (∃ e ∈ (add_active_project_svc empty_memory_state [("name", "alpha")]).entries,
      e.category = "project" ∧ e.key = "active_project_" ++ "alpha" ∧
        e.value = json_dumps [("name", "alpha")]) :=
  ⟨by decide,
   memory_entry_side_effects.1 empty_memory_state [("role", PyVal.str "engineer")]
     ("role", PyVal.str "engineer") (by decide),
   by decide,
   memory_entry_side_effects.2.1 empty_memory_state [("name", "alpha")] "alpha" (by decide)⟩

theorem add_active_project_of_no_match (ps : List Proj) (p : Proj)
    (h : ∀ x ∈ ps, dget x "name" ≠ dget p "name") :
    add_active_project ps p = ps ++ [p] := by
  induction ps with
  | nil => rfl
  | cons q qs ih =>
      have hq : dget q "name" ≠ dget p "name" := h q (List.mem_cons_self _ _)
      rw [add_active_project, if_neg hq, ih (fun x hx => h x (List.mem_cons_of_mem _ hx))]
      rfl

theorem add_active_project_countP (ps : List Proj) (p : Proj) (n : String)
    (hp : dget p "name" = some n) (hkeys : (p.map Prod.fst).Nodup)
    (hcount : ps.countP (fun q => decide (dget q "name" = some n)) ≤ 1) :
    (add_active_project ps p).countP (fun q => decide (dget q "name" = some n)) = 1 := by
  induction ps with
  | nil => simp [add_active_project, List.countP_cons, hp]
  | cons q qs ih =>
      by_cases hq : dget q "name" = dget p "name"
      · rw [add_active_project, if_pos hq]
        have hqn : dget q "name" = some n := hq.trans hp
        have hun : dget (dict_update q p) "name" = some n := by
          rw [dget_dict_update _ _ _ hkeys, hp]
          rfl
        rw [List.countP_cons, if_pos (by simp [hun])]
        have : qs.countP (fun q2 => decide (dget q2 "name" = some n)) = 0 := by
          rw [List.countP_cons, if_pos (by simp [hqn])] at hcount
          omega
        omega
      · rw [add_active_project, if_neg hq]
        have hqn : ¬ dget q "name" = some n := fun hc => hq (hc.trans hp.symm)
        rw [List.countP_cons, if_neg (by simp [hqn])]
        rw [List.countP_cons, if_neg (by simp [hqn])] at hcount
        have := ih hcount
        omega

theorem mem_add_active_project (ps : List Proj) (p : Proj) (n : String)
    (hp : dget p "name" = some n)
    (hcount : ps.countP (fun q => decide (dget q "name" = some n)) ≤ 1) :
    ∀ q ∈ add_active_project ps p, dget q "name" = some n →
      (∃ q0 ∈ ps, dget q0 "name" = some n ∧ q = dict_update q0 p) ∨
      ((∀ x ∈ ps, dget x "name" ≠ some n) ∧ q = p) := by
  induction ps with
  | nil =>
      intro q hq hqn
      right
      refine ⟨by simp, ?_⟩
      simpa [add_active_project] using hq
  | cons a as ih =>
      intro q hq hqn
      by_cases ha : dget a "name" = dget p "name"
      · rw [add_active_project, if_pos ha] at hq
        have han : dget a "name" = some n := ha.trans hp
        rcases List.mem_cons.mp hq with heq | hmem
        · exact Or.inl ⟨a, List.mem_cons_self _ _, han, heq⟩
        · exfalso
          have hzero : as.countP (fun q2 => decide (dget q2 "name" = some n)) = 0 := by
            rw [List.countP_cons, if_pos (by simp [han])] at hcount
            omega
          have := List.countP_eq_zero.mp hzero q hmem
          simp [hqn] at this
      · rw [add_active_project, if_neg ha] at hq
        have han : ¬ dget a "name" = some n := fun hc => ha (hc.trans hp.symm)
        rcases List.mem_cons.mp hq with heq | hmem
        · exact absurd (heq ▸ hqn) han
        · have hcount2 : as.countP (fun q2 => decide (dget q2 "name" = some n)) ≤ 1 := by
            rw [List.countP_cons] at hcount
            omega
          rcases ih hcount2 q hmem hqn with ⟨q0, hq0, hq0n, hq0e⟩ | ⟨hnone, hqe⟩
          · exact Or.inl ⟨q0, List.mem_cons_of_mem _ hq0, hq0n, hq0e⟩
          · refine Or.inr ⟨?_, hqe⟩
            intro x hx
            rcases List.mem_cons.mp hx with hxa | hxs
            · exact hxa ▸ han
            · exact hnone x hxs

/-- Claim C4: starting from a project list holding at most one entry for
name `n`, two `addOrUpdateProject` calls for that name leave exactly one
entry for it; every surviving entry for that name carries the second call's
fields, and when the name was fresh the first call's fields not overridden
by the second call are retained; a call whose name matches no stored
project appends it. -/
theorem add_or_update_project_spec (ps : List Proj) (p1 p2 : Proj) (n : String)
    (h1 : dget p1 "name" = some n) (h2 : dget p2 "name" = some n)
    (hkeys1 : (p1.map Prod.fst).Nodup) (hkeys2 : (p2.map Prod.fst).Nodup)
    (hcount : ps.countP (fun q => decide (dget q "name" = some n)) ≤ 1) :
    ((add_active_project (add_active_project ps p1) p2).countP
        (fun q => decide (dget q "name" = some n)) = 1) ∧
    (∀ q ∈ add_active_project (add_active_project ps p1) p2,
        dget q "name" = some n → ∀ k v, dget p2 k = some v → dget q k = some v) ∧
    ((∀ x ∈ ps, dget x "name" ≠ some n) →
        ∀ q ∈ add_active_project (add_active_project ps p1) p2,
          dget q "name" = some n → ∀ k, dget p2 k = none → dget q k = dget p1 k) ∧
    (∀ (ps2 : List Proj) (p : Proj), (∀ x ∈ ps2, dget x "name" ≠ dget p "name") →
        add_active_project ps2 p = ps2 ++ [p]) := by
  have hc1 : (add_active_project ps p1).countP
      (fun q => decide (dget q "name" = some n)) = 1 :=
    add_active_project_countP ps p1 n h1 hkeys1 hcount
  refine ⟨?_, ?_, ?_, add_active_project_of_no_match⟩
  · exact add_active_project_countP _ p2 n h2 hkeys2 (by omega)
  · intro q hq hqn k v hk
    rcases mem_add_active_project _ p2 n h2 (by omega) q hq hqn with
      ⟨q0, _, _, hq0e⟩ | ⟨_, hqe⟩
    · rw [hq0e, dget_dict_update _ _ _ hkeys2, hk]
      rfl
    · rw [hqe, hk]
  · intro hno q hq hqn k hk
    have happ : add_active_project ps p1 = ps ++ [p1] :=
      add_active_project_of_no_match ps p1 (fun x hx => by rw [h1]; exact hno x hx)
    rcases mem_add_active_project _ p2 n h2 (by omega) q hq hqn with
      ⟨q0, hq0m, hq0n, hq0e⟩ | ⟨hnone, _⟩
    · have hq0p1 : q0 = p1 := by
        rw [happ] at hq0m
        rcases List.mem_append.mp hq0m with hps | hp1
        · exact absurd hq0n (hno q0 hps)
        · simpa using hp1
      rw [hq0e, hq0p1, dget_dict_update _ _ _ hkeys2, hk]
      rfl
    · exfalso
      have : p1 ∈ add_active_project ps p1 := by
        rw [happ]
        simp
      exact hnone p1 this h1

/-- Claim C4 witness: updating project `alpha` twice on an empty list — the
second status wins, the first call's extra field survives, and the fresh
name is appended rather than duplicated. -/
theorem add_or_update_project_spec_witness :
    (dget [("name", "alpha"), ("status", "active"), ("owner", "dana")] "name" = some "alpha") ∧
    (dget [("name", "alpha"), ("status", "done")] "name" = some "alpha") ∧
    ((add_active_project (add_active_project []
        [("name", "alpha"), ("status", "active"), ("owner", "dana")])
        [("name", "alpha"), ("status", "done")]).countP
      (fun q => decide (dget q "name" = some "alpha")) = 1) :=
  ⟨by decide, by decide,
   (add_or_update_project_spec [] [("name", "alpha"), ("status", "active"), ("owner", "dana")]
     [("name", "alpha"), ("status", "done")] "alpha"
     (by decide) (by decide) (by decide) (by decide) (by decide)).1⟩

theorem add_results_mem (tag : String) (rows : List ChunkRow) (seen : List String) :
    ∀ m ∈ (add_results tag rows seen).2,
      m.search_type = tag ∧ m.chunk_id ∉ seen ∧
        ∃ r ∈ rows, r.chunk_id = m.chunk_id ∧ r.similarity = m.similarity := by
  induction rows generalizing seen with
  | nil => simp [add_results]
  | cons r rs ih =>
      intro m hm
      by_cases hs : r.chunk_id ∈ seen
      · rw [add_results, if_pos hs] at hm
        obtain ⟨ht, hns, r0, hr0, hid, hsim⟩ := ih seen m hm
        exact ⟨ht, hns, r0, List.mem_cons_of_mem _ hr0, hid, hsim⟩
      · rw [add_results, if_neg hs] at hm
        rcases List.mem_cons.mp hm with heq | hmem
        · subst heq
          exact ⟨rfl, hs, r, List.mem_cons_self _ _, rfl, rfl⟩
        · obtain ⟨ht, hns, r0, hr0, hid, hsim⟩ := ih (r.chunk_id :: seen) m hmem
          exact ⟨ht, fun hc => hns (List.mem_cons_of_mem _ hc),
            r0, List.mem_cons_of_mem _ hr0, hid, hsim⟩

theorem add_results_seen_sub (tag : String) (rows : List ChunkRow) (seen : List String) :
    seen ⊆ (add_results tag rows seen).1 := by
  induction rows generalizing seen with
  | nil => simp [add_results]
  | cons r rs ih =>
      by_cases hs : r.chunk_id ∈ seen
      · rw [add_results, if_pos hs]
        exact ih seen
      · rw [add_results, if_neg hs]
        exact fun a ha => ih (r.chunk_id :: seen) (List.mem_cons_of_mem _ ha)

theorem add_results_covers (tag : String) (rows : List ChunkRow) (seen : List String) :
    ∀ r ∈ rows, r.chunk_id ∈ (add_results tag rows seen).1 := by
  induction rows generalizing seen with
  | nil => simp
  | cons r rs ih =>
      intro r0 hr0
      by_cases hs : r.chunk_id ∈ seen
      · rw [add_results, if_pos hs]
        rcases List.mem_cons.mp hr0 with heq | hmem
        · subst heq
          exact add_results_seen_sub tag rs seen hs
        · exact ih seen r0 hmem
      · rw [add_results, if_neg hs]
        rcases List.mem_cons.mp hr0 with heq | hmem
        · subst heq
          exact add_results_seen_sub tag rs _ (List.mem_cons_self _ _)
        · exact ih (r.chunk_id :: seen) r0 hmem

theorem add_results_out_in_seen (tag : String) (rows : List ChunkRow) (seen : List String) :
    ∀ m ∈ (add_results tag rows seen).2, m.chunk_id ∈ (add_results tag rows seen).1 := by
  intro m hm
  obtain ⟨_, _, r0, hr0, hid, _⟩ := add_results_mem tag rows seen m hm
  exact hid ▸ add_results_covers tag rows seen r0 hr0

theorem add_results_nodup (tag : String) (rows : List ChunkRow) (seen : List String) :
    ((add_results tag rows seen).2.map MergedRow.chunk_id).Nodup := by
  induction rows generalizing seen with
  | nil => simp [add_results]
  | cons r rs ih =>
      by_cases hs : r.chunk_id ∈ seen
      · rw [add_results, if_pos hs]
        exact ih seen
      · rw [add_results, if_neg hs]
        simp only [List.map_cons, List.nodup_cons]
        refine ⟨?_, ih (r.chunk_id :: seen)⟩
        intro hc
        obtain ⟨m, hm, hid⟩ := List.mem_map.mp hc
        obtain ⟨_, hns, _⟩ := add_results_mem tag rs (r.chunk_id :: seen) m hm
        exact hns (hid ▸ List.mem_cons_self _ _)

theorem hybrid_merge_eq_take (vec kw : List ChunkRow) (k dflt : Nat) (hk : 0 < k) :
    hybrid_merge vec kw (some k) dflt =
      (((add_results "vector" vec []).2 ++
        (add_results "keyword" kw (add_results "vector" vec []).1).2).insertionSort
          sim_ge).take k := by
  simp only [hybrid_merge, py_or_nat]
  rw [if_neg (by omega)]

theorem combined_nodup (vec kw : List ChunkRow) :
    (((add_results "vector" vec []).2 ++
      (add_results "keyword" kw (add_results "vector" vec []).1).2).map
        MergedRow.chunk_id).Nodup := by
  rw [List.map_append, List.nodup_append]
  refine ⟨add_results_nodup _ _ _, add_results_nodup _ _ _, ?_⟩
  intro a ha1 ha2
  obtain ⟨m1, hm1, hid1⟩ := List.mem_map.mp ha1
  obtain ⟨m2, hm2, hid2⟩ := List.mem_map.mp ha2
  obtain ⟨_, hns2, _⟩ := add_results_mem "keyword" kw (add_results "vector" vec []).1 m2 hm2
  have h1 : m1.chunk_id ∈ (add_results "vector" vec []).1 :=
    add_results_out_in_seen "vector" vec [] m1 hm1
  exact hns2 (by rw [hid2, ← hid1]; exact h1)

/-- Claim C1 counterexample: the merge truncates with Python `top_k or
self.top_k`, and `0` is falsy, so at `topK = 0` the configured default (here
5) is used instead and a non-empty result of length 1 comes back — not a
result of length at most `topK = 0`. -/
theorem hybrid_merge_top_k_zero_counterexample :
    ¬ ((hybrid_merge [⟨"A", (1 : ℚ)⟩] [] (some 0) 5).length ≤ 0) := by
  decide

/-- Claim C1 (amended): for every pair of result lists and every `topK ≥ 1`
the hybrid merge deduplicates by chunk id (vector wins: a merged row whose
id occurs among the vector rows carries `search_type = "vector"` and a
vector-derived similarity, one occurring only among the keyword rows
carries `search_type = "keyword"` and a keyword-derived similarity), is
ordered by descending similarity, and is truncated to at most `topK` rows;
`topK = 0`, like `None`, falls back to the configured default.  In
particular merging vector `[A: 0.9]` with keyword `[A: 0.4, B: 0.3]` at
`topK = 2` yields `[A (vector, 0.9), B (keyword, 0.3)]`. -/
theorem hybrid_merge_spec :
    (∀ (vec kw : List ChunkRow) (k dflt : Nat), 0 < k →
      ((hybrid_merge vec kw (some k) dflt).length ≤ k) ∧
      ((hybrid_merge vec kw (some k) dflt).map MergedRow.chunk_id).Nodup ∧
      ((hybrid_merge vec kw (some k) dflt).Pairwise sim_ge) ∧
      (∀ m ∈ hybrid_merge vec kw (some k) dflt,
        (∃ v ∈ vec, v.chunk_id = m.chunk_id) →
          m.search_type = "vector" ∧
            ∃ v ∈ vec, v.chunk_id = m.chunk_id ∧ v.similarity = m.similarity) ∧
      (∀ m ∈ hybrid_merge vec kw (some k) dflt,
        (∀ v ∈ vec, v.chunk_id ≠ m.chunk_id) →
          m.search_type = "keyword" ∧
            ∃ w ∈ kw, w.chunk_id = m.chunk_id ∧ w.similarity = m.similarity)) ∧
    (hybrid_merge [⟨"A", 0.9⟩] [⟨"A", 0.4⟩, ⟨"B", 0.3⟩] (some 2) 5 =
      [⟨"A", 0.9, "vector"⟩, ⟨"B", 0.3, "keyword"⟩]) := by
  constructor
  · intro vec kw k dflt hk
    have hmerge := hybrid_merge_eq_take vec kw k dflt hk
    have hperm : ((((add_results "vector" vec []).2 ++
        (add_results "keyword" kw (add_results "vector" vec []).1).2).insertionSort
          sim_ge)).Perm
        ((add_results "vector" vec []).2 ++
          (add_results "keyword" kw (add_results "vector" vec []).1).2) :=
      List.perm_insertionSort _ _
    have hmem_combined : ∀ m ∈ hybrid_merge vec kw (some k) dflt,
        m ∈ (add_results "vector" vec []).2 ∨
          m ∈ (add_results "keyword" kw (add_results "vector" vec []).1).2 := by
      intro m hm
      rw [hmerge] at hm
      exact List.mem_append.mp (hperm.mem_iff.mp (List.take_subset _ _ hm))
    refine ⟨?_, ?_, ?_, ?_, ?_⟩
    · rw [hmerge, List.length_take]
      exact inf_le_left
    · rw [hmerge, List.map_take]
      exact List.Nodup.sublist (List.take_sublist _ _)
        ((hperm.map MergedRow.chunk_id).nodup_iff.mpr (combined_nodup vec kw))
    · rw [hmerge]
      exact (List.sorted_insertionSort sim_ge _).sublist (List.take_sublist _ _)
    · intro m hm ⟨v, hv, hvid⟩
      rcases hmem_combined m hm with h1 | h2
      · obtain ⟨ht, _, r0, hr0, hid, hsim⟩ := add_results_mem "vector" vec [] m h1
        exact ⟨ht, r0, hr0, hid, hsim⟩
      · exfalso
        obtain ⟨_, hns, _⟩ :=
          add_results_mem "keyword" kw (add_results "vector" vec []).1 m h2
        exact hns (hvid ▸ add_results_covers "vector" vec [] v hv)
    · intro m hm hno
      rcases hmem_combined m hm with h1 | h2
      · exfalso
        obtain ⟨_, _, r0, hr0, hid, _⟩ := add_results_mem "vector" vec [] m h1
        exact hno r0 hr0 hid
      · obtain ⟨ht, _, r0, hr0, hid, hsim⟩ :=
          add_results_mem "keyword" kw (add_results "vector" vec []).1 m h2
        exact ⟨ht, r0, hr0, hid, hsim⟩
  · norm_num [hybrid_merge, add_results, py_or_nat, List.insertionSort,
      List.orderedInsert, sim_ge]

/-- Claim C1 witness: instantiating the merge specification at `topK = 2`
on a singleton vector result. -/
theorem hybrid_merge_spec_witness :
    0 < 2 ∧ (hybrid_merge [⟨"A", (1 : ℚ)⟩] [] (some 2) 5).length ≤ 2 :=
  ⟨by decide, (hybrid_merge_spec.1 [⟨"A", (1 : ℚ)⟩] [] 2 5 (by decide)).1⟩

theorem reach_within_succ_iff (es : List KnowledgeEdge) (x y : String) (d : Nat) :
    reach_within es x y (d + 1) = true ↔
      ∃ n ∈ neighbors es x, n = y ∨ reach_within es n y d = true := by
  simp only [reach_within, List.any_eq_true, Bool.or_eq_true, decide_eq_true_eq]

theorem reach_within_mono (es : List KnowledgeEdge) (y : String) (d : Nat) :
    ∀ (x : String) (d2 : Nat), reach_within es x y d = true → d ≤ d2 →
      reach_within es x y d2 = true := by
  induction d with
  | zero => intro x d2 h _; simp [reach_within] at h
  | succ d ih =>
      intro x d2 h hd
      obtain ⟨d3, rfl⟩ : ∃ d3, d2 = d3 + 1 := ⟨d2 - 1, by omega⟩
      rw [reach_within_succ_iff] at h ⊢
      obtain ⟨n, hn, hcase⟩ := h
      rcases hcase with heq | hreach
      · exact ⟨n, hn, Or.inl heq⟩
      · exact ⟨n, hn, Or.inr (ih n d3 hreach (by omega))⟩

theorem reach_within_append_step (es : List KnowledgeEdge) (z y : String) (d : Nat) :
    ∀ x : String, reach_within es x z d = true → y ∈ neighbors es z →
      reach_within es x y (d + 1) = true := by
  induction d with
  | zero => intro x h _; simp [reach_within] at h
  | succ d ih =>
      intro x h hy
      rw [reach_within_succ_iff] at h ⊢
      obtain ⟨n, hn, hcase⟩ := h
      rcases hcase with heq | hreach
      · refine ⟨n, hn, Or.inr ?_⟩
        rw [reach_within_succ_iff]
        exact ⟨y, heq ▸ hy, Or.inl rfl⟩
      · exact ⟨n, hn, Or.inr (ih n hreach hy)⟩

theorem paths_from_sound (es : List KnowledgeEdge) (x : String) (k : Nat) :
    ∀ p ∈ paths_from es x k, ∀ h, p.head? = some h →
      (k = 0 ∧ h = x) ∨ reach_within es x h k = true := by
  induction k with
  | zero =>
      intro p hp h hh
      simp only [paths_from, List.mem_singleton] at hp
      subst hp
      simp only [List.head?_cons, Option.some.injEq] at hh
      exact Or.inl ⟨rfl, hh.symm⟩
  | succ k ih =>
      intro p hp h hh
      simp only [paths_from, List.mem_flatMap] at hp
      obtain ⟨q, hq, hpq⟩ := hp
      cases hqh : q.head? with
      | none => rw [hqh] at hpq; simp at hpq
      | some v =>
          rw [hqh] at hpq
          obtain ⟨n, hn, rfl⟩ := List.mem_map.mp hpq
          simp only [List.head?_cons, Option.some.injEq] at hh
          refine Or.inr ?_
          rcases ih q hq v hqh with ⟨hk0, hvx⟩ | hreach
          · subst hk0
            rw [reach_within_succ_iff]
            exact ⟨n, hvx ▸ hn, Or.inl hh⟩
          · have hstep := reach_within_append_step es v n k x hreach hn
            exact hh ▸ hstep

/-- Claim C9: when no undirected path of length at most `maxDepth` connects
the two entities, `get_entity_path` returns the absent value `none` — a
normal result, not an error (the embedded adapter is a total function into
`Option`, mirroring the Python code's `return None` when the store query
yields no record). -/
theorem get_entity_path_no_path (es : List KnowledgeEdge) (x y : String) (d : Nat)
    (h : reach_within es x y d = false) : get_entity_path es x y d = none := by
  cases hs : store_shortest_path es x y d with
  | none => simp [get_entity_path, hs]
  | some p =>
      exfalso
      simp only [store_shortest_path, Option.map_eq_some'] at hs
      obtain ⟨p0, hfind, _⟩ := hs
      have h1 := List.find?_some hfind
      have hhead : p0.head? = some y := by simpa using h1
      have hmem := List.mem_of_find?_eq_some hfind
      obtain ⟨k0, hk0, hp0⟩ := List.mem_flatMap.mp hmem
      have hk0d : k0 < d := List.mem_range.mp hk0
      rcases paths_from_sound es x (k0 + 1) p0 hp0 y hhead with ⟨hcon, _⟩ | hreach
      · omega
      · have := reach_within_mono es y (k0 + 1) x d hreach (by omega)
        rw [h] at this
        exact Bool.false_ne_true this

/-- Claim C9 witness: a two-node graph with a single edge `A — B` has no
path from `A` to `C` within 3 hops, and the adapter answers `none`. -/
theorem get_entity_path_no_path_witness :
    reach_within [⟨"A", "B", "related_to"⟩] "A" "C" 3 = false ∧
    get_entity_path [⟨"A", "B", "related_to"⟩] "A" "C" 3 = none :=
  ⟨by decide, get_entity_path_no_path [⟨"A", "B", "related_to"⟩] "A" "C" 3 (by decide)⟩
